import Mathlib

/-!
Verification of the ordering and renaming engine of the Managa_Renamer
repository (src/core/renamer.py, src/core/sequence_detector.py,
src/core/vlm_analyzer.py) against its natural-language specification.

The Python code is shallowly embedded: pathlib paths become a pair of a
directory component list and a base name, the filesystem becomes an
association list from paths to opaque byte contents (a natural number
stands for a file's content), `os.rename` gets POSIX semantics (the
destination, when it exists, is silently replaced), and the pairwise
comparison oracle of the vision model becomes an abstract function that
either returns a parsed verdict or fails (models a raised exception).
-/

namespace MangaRenamer

/-! ### Path model (pathlib fragment used by the code)

A `pathlib.Path` is modelled by its parent-directory components and its
final component (the base name).  Only `parent`, `name`, `stem`, `suffix`
and the `/` join operation are used by the code under verification. -/

/-- Index of the last occurrence of a dot in a character list, if any. -/
def findLastDot : List Char → Option Nat
  | [] => none
  | c :: cs =>
    match findLastDot cs with
    | some i => some (i + 1)
    | none => if c = '.' then some 0 else none

/-- Model of `pathlib.PurePath.suffix` on a base name: the substring from
the last dot, provided that dot is neither the first nor the last
character of the name (pathlib returns an empty suffix for names such as
`.hidden` or `archive.`). -/
def pySuffix (name : String) : String :=
  match findLastDot name.data with
  | some i =>
    if 0 < i ∧ i + 1 < name.data.length then String.mk (name.data.drop i) else ""
  | none => ""

/-- Model of `pathlib.PurePath.stem` on a base name: the name with its
suffix removed (the whole name when the suffix is empty). -/
def pyStem (name : String) : String :=
  match findLastDot name.data with
  | some i =>
    if 0 < i ∧ i + 1 < name.data.length then String.mk (name.data.take i) else name
  | none => name

/-- A filesystem path: parent directory components plus base name. -/
structure FsPath where
  dir : List String
  base : String
deriving DecidableEq

/-- Model of `str(n).zfill(digits)`: decimal representation of `n` padded
with leading zeros up to `digits` characters (unchanged when already at
least that long). -/
def zfill (n digits : Nat) : String :=
  let s := toString n
  if s.length < digits then String.mk (List.replicate (digits - s.length) '0') ++ s else s

/-! ### SequenceDetector (src/core/sequence_detector.py)

The detector is constructed with the default pattern `\d+`; `re.search`
with that pattern finds the first maximal run of decimal digits in the
filename stem and `int(...)` parses it. -/

/-- First maximal run of decimal digits in a character list, if any
(model of `re.search` with the default pattern of one or more digits). -/
def firstDigitRun : List Char → Option (List Char)
  | [] => none
  | c :: cs => if c.isDigit then some (c :: cs.takeWhile Char.isDigit) else firstDigitRun cs

/-- Decimal value of a digit run (model of Python `int` on a digit string;
leading zeros are allowed). -/
def digitsVal (ds : List Char) : Nat :=
  ds.foldl (fun n c => n * 10 + (c.toNat - 48)) 0

/-- Model of extracting the numeric token of one filename stem:
`re.search(self.pattern, file_path.stem)` followed by `int(match.group())`,
or `None` when the stem holds no digit. -/
def extractNumber (stem : String) : Option Nat :=
  (firstDigitRun stem.data).map digitsVal

/-- Numbers extracted from a file list in input order, files without a
match silently skipped (the common loop of `detect_missing`,
`detect_duplicates`, `validate_sequence` and `get_sequence_gaps`). -/
def extractedNumbers (file_paths : List FsPath) : List Nat :=
  file_paths.filterMap (fun p => extractNumber (pyStem p.base))

/-- Model of Python `min` on a nonempty list, folded from the left. -/
def foldMin (a : Nat) : List Nat → Nat
  | [] => a
  | b :: t => foldMin (min a b) t

/-- Model of Python `max` on a nonempty list, folded from the left. -/
def foldMax (a : Nat) : List Nat → Nat
  | [] => a
  | b :: t => foldMax (max a b) t

/-- Python `min(numbers)` over the extracted-number list (`None` when the
list is empty). -/
def pyMin : List Nat → Option Nat
  | [] => none
  | a :: t => some (foldMin a t)

/-- Python `max(numbers)` over the extracted-number list (`None` when the
list is empty). -/
def pyMax : List Nat → Option Nat
  | [] => none
  | a :: t => some (foldMax a t)

/-- Model of `SequenceDetector.detect_missing`: when at least one number
was extracted, the ascending enumeration of `range(min, max + 1)` with the
extracted numbers removed (the code forms
`sorted(set(range(mn, mx + 1)) - set(numbers))`, which is exactly the
ascending range filtered to non-members); `[]` when nothing was
extracted. -/
def detect_missing (file_paths : List FsPath) : List Nat :=
  let numbers := extractedNumbers file_paths
  match pyMin numbers, pyMax numbers with
  | some mn, some mx =>
    (List.range' mn (mx + 1 - mn)).filter (fun k => !(numbers.contains k))
  | _, _ => []

/-- One lookup step in the insertion-ordered grouping dictionary of
`detect_duplicates` (Python dicts preserve insertion order). -/
def lookupG : List (Nat × List String) → Nat → Option (List String)
  | [], _ => none
  | (m, fs) :: t, n => if m = n then some fs else lookupG t n

/-- Model of `number_files[number].append(file_path.name)` preceded by the
`number not in number_files` initialisation: append to the existing group
or add a fresh singleton group at the end. -/
def addToGroups (gs : List (Nat × List String)) (n : Nat) (name : String) :
    List (Nat × List String) :=
  match gs with
  | [] => [(n, [name])]
  | (m, fs) :: t => if m = n then (m, fs ++ [name]) :: t else (m, fs) :: addToGroups t n name

/-- The grouping loop of `detect_duplicates` over the file list. -/
def buildGroups (gs : List (Nat × List String)) : List FsPath → List (Nat × List String)
  | [] => gs
  | p :: ps =>
    match extractNumber (pyStem p.base) with
    | some n => buildGroups (addToGroups gs n p.base) ps
    | none => buildGroups gs ps

/-- Model of `SequenceDetector.detect_duplicates`: the groups of filenames
keyed by extracted number, restricted to groups of size greater than
one. -/
def detect_duplicates (file_paths : List FsPath) : List (Nat × List String) :=
  (buildGroups [] file_paths).filter (fun g => 1 < g.2.length)

/-- Model of the result dictionary of `SequenceDetector.validate_sequence`. -/
structure SequenceReport where
  is_valid : Bool
  missing_numbers : List Nat
  duplicate_numbers : List (Nat × List String)
  total_files : Nat
  min_number : Option Nat
  max_number : Option Nat
deriving DecidableEq

/-- Model of `SequenceDetector.validate_sequence`. -/
def validate_sequence (file_paths : List FsPath) : SequenceReport :=
  let missing := detect_missing file_paths
  let duplicates := detect_duplicates file_paths
  let numbers := extractedNumbers file_paths
  { is_valid := missing.length = 0 ∧ duplicates.length = 0
    missing_numbers := missing
    duplicate_numbers := duplicates
    total_files := file_paths.length
    min_number := pyMin numbers
    max_number := pyMax numbers }

/-- Model of Python `numbers.sort()` on the extracted multiset (ints sort
by the usual order; any correct sort yields the same list). -/
def numSort (l : List Nat) : List Nat :=
  List.insertionSort (· ≤ ·) l

/-- Model of the gap loop of `get_sequence_gaps`: adjacent pairs of the
sorted multiset whose difference exceeds one. -/
def adjacentGaps (l : List Nat) : List (Nat × Nat) :=
  (l.zip l.tail).filter (fun p => 1 < p.2 - p.1)

/-- Model of `SequenceDetector.get_sequence_gaps`. -/
def get_sequence_gaps (file_paths : List FsPath) : List (Nat × Nat) :=
  let numbers := extractedNumbers file_paths
  match numbers with
  | [] => []
  | _ => adjacentGaps (numSort numbers)

/-- Removal of adjacent duplicates; on a sorted list this is the distinct
sorted set of its members (used to state the claim about
`get_sequence_gaps` against the distinct-set reading). -/
def dedupAdj : List Nat → List Nat
  | [] => []
  | [a] => [a]
  | a :: b :: t => if a = b then dedupAdj (b :: t) else a :: dedupAdj (b :: t)

/-! ### ImageRenamer (src/core/renamer.py)

The filesystem is an association list from paths to opaque contents (a
`Nat` stands for a file's bytes).  `os.rename` gets POSIX semantics: it
fails when the source is absent and silently replaces the destination
when it exists.  Logging, timestamps and directory creation have no
observable effect on this state and are not modelled; the backup
timestamp is passed in as a parameter. -/

/-- Filesystem state: association list from paths to file contents. -/
abbrev Fs := List (FsPath × Nat)

/-- Lookup of a path in the filesystem (model of `Path.exists` and of
reading a file's bytes). -/
def fsLookup : Fs → FsPath → Option Nat
  | [], _ => none
  | (q, c) :: t, p => if q = p then some c else fsLookup t p

/-- Removal of a path from the filesystem. -/
def fsErase (fs : Fs) (p : FsPath) : Fs :=
  fs.filter (fun e => !(e.1 = p))

/-- Model of POSIX `os.rename` (what `Path.rename` performs on Unix):
error when the source does not exist, otherwise the source entry moves to
the destination name, silently replacing any file already there. -/
def osRename (fs : Fs) (src dst : FsPath) : Except String Fs :=
  match fsLookup fs src with
  | none => Except.error "FileNotFoundError"
  | some c => Except.ok ((dst, c) :: fsErase (fsErase fs src) dst)

/-- Model of `shutil.copy2` inside `_create_backup`: copy each source
file into the timestamped backup directory, overwriting by name; a copy
failure (absent source) is logged and skipped, never raised. -/
def createBackup (fs : Fs) (file_paths : List FsPath) (tdir : List String) (ts : String) : Fs :=
  let bdir := tdir ++ [".backup_" ++ ts]
  file_paths.foldl
    (fun acc p =>
      match fsLookup acc p with
      | some c => ((⟨bdir, p.base⟩ : FsPath), c) :: fsErase acc ⟨bdir, p.base⟩
      | none => acc)
    fs

/-- One planned rename: the dictionaries pushed onto `temp_renames`. -/
structure RenameOp where
  original_path : FsPath
  final_path : FsPath
  number : Nat
deriving DecidableEq

/-- One entry of the returned rename log. -/
structure LogEntry where
  original : FsPath
  new : FsPath
  number : Nat
  success : Bool
  error : Option String
deriving DecidableEq

/-- The planning loop `for idx, file_path in enumerate(file_paths,
start=start_number)`: the planned name is the prefix, the zero-padded
index, and the original extension, joined under the target directory.
The plan is a function of the inputs alone, never of the filesystem. -/
def planRenames (tdir : List String) (pre : String) (digits : Nat) :
    Nat → List FsPath → List RenameOp
  | _, [] => []
  | idx, p :: ps =>
    { original_path := p
      final_path := ⟨tdir, pre ++ zfill idx digits ++ pySuffix p.base⟩
      number := idx } :: planRenames tdir pre digits (idx + 1) ps

/-- The hidden temporary name `final_path.parent / (".tmp_" + final_path.name)`
used by the two-step indirect rename. -/
def tmpPath (final : FsPath) : FsPath :=
  ⟨final.dir, ".tmp_" ++ final.base⟩

/-- Execution of one planned rename, translating the per-item body of
`rename_files`: dry runs and same-name plans succeed without touching the
filesystem; when the planned name is occupied the two-step indirect
rename runs (original to hidden temporary, temporary to final), otherwise
a direct rename; any rename error is caught and recorded on the entry. -/
def execOp (dry_run : Bool) (fs : Fs) (op : RenameOp) : Fs × LogEntry :=
  let entry : LogEntry :=
    { original := op.original_path, new := op.final_path, number := op.number,
      success := false, error := none }
  if dry_run then
    (fs, { entry with success := true })
  else if op.original_path = op.final_path then
    (fs, { entry with success := true })
  else if (fsLookup fs op.final_path).isSome then
    match osRename fs op.original_path (tmpPath op.final_path) with
    | Except.error e => (fs, { entry with error := some e })
    | Except.ok fs1 =>
      match osRename fs1 (tmpPath op.final_path) op.final_path with
      | Except.error e => (fs1, { entry with error := some e })
      | Except.ok fs2 => (fs2, { entry with success := true })
  else
    match osRename fs op.original_path op.final_path with
    | Except.error e => (fs, { entry with error := some e })
    | Except.ok fs1 => (fs1, { entry with success := true })

/-- The execution loop over all planned renames, appending one log entry
per plan in planning order whatever each item's outcome. -/
def execOps (dry_run : Bool) : Fs → List RenameOp → Fs × List LogEntry
  | fs, [] => (fs, [])
  | fs, op :: ops =>
    let r := execOp dry_run fs op
    let rest := execOps dry_run r.1 ops
    (rest.1, r.2 :: rest.2)

/-- Model of `ImageRenamer.rename_files` (`self.dry_run` and the `backup`
flag are passed explicitly, `ts` is the backup timestamp): an empty file
list returns an empty log at once; otherwise the target directory
defaults to the parent of the first file, a backup is taken when
requested outside dry runs, all plans are computed, and the plans are
executed in order. -/
def rename_files (dry_run backup : Bool) (ts : String) (fs : Fs)
    (file_paths : List FsPath) (target_dir : Option (List String))
    (pre : String) (digits : Nat) (start_number : Nat) : Fs × List LogEntry :=
  match file_paths with
  | [] => (fs, [])
  | p0 :: _ =>
    let tdir := target_dir.getD p0.dir
    let fs1 := if backup && !dry_run then createBackup fs file_paths tdir ts else fs
    execOps dry_run fs1 (planRenames tdir pre digits start_number file_paths)

/-! ### VLMAnalyzer (src/core/vlm_analyzer.py)

The vision-model oracle is abstracted as a function from the two image
paths to an optional verdict: `some v` is the parsed `-1`/`0`/`1` answer
of a successful `create_chat_completion` round trip, `none` is any
exception raised while encoding the images or querying the model.  The
comparison cache is the `self.comparison_cache` dictionary, modelled as
an insertion-ordered association list, together with a counter of oracle
consultations.  Progress callbacks and logging are effect-free and not
modelled. -/

/-- Oracle abstraction: parsed verdict of one model consultation, or
`none` for a raised exception. -/
abbrev Oracle := String → String → Option Int

/-- Cache lookup (Python dict membership plus subscript). -/
def cacheLookup : List ((String × String) × Int) → String × String → Option Int
  | [], _ => none
  | (k, v) :: t, q => if k = q then some v else cacheLookup t q

/-- Analyzer state: the comparison cache and the number of oracle
consultations made so far. -/
structure AnalyzerState where
  cache : List ((String × String) × Int)
  calls : Nat
deriving DecidableEq

/-- The state of a freshly constructed analyzer (`self.comparison_cache = {}`). -/
def initState : AnalyzerState := { cache := [], calls := 0 }

/-- Model of `VLMAnalyzer.compare_images_order`: with the cache enabled,
a hit on the queried ordered pair returns the stored verdict and a hit on
the reversed pair returns its negation, neither consulting the oracle;
otherwise the oracle is consulted, a successful verdict is stored under
the queried ordered pair and returned, and a raised exception yields the
neutral verdict `0` with nothing stored. -/
def compare_images_order (oracle : Oracle) (enableCache : Bool)
    (s : AnalyzerState) (img1 img2 : String) : Int × AnalyzerState :=
  let ck := (img1, img2)
  let rk := (img2, img1)
  match if enableCache then cacheLookup s.cache ck else none with
  | some v => (v, s)
  | none =>
    match if enableCache then cacheLookup s.cache rk else none with
    | some v => (-v, s)
    | none =>
      match oracle img1 img2 with
      | none => (0, { s with calls := s.calls + 1 })
      | some v =>
        ( v,
          { cache := if enableCache then (ck, v) :: s.cache else s.cache,
            calls := s.calls + 1 } )

/-- A sequence of `compare_images_order` calls over one unordered pair:
`true` queries the pair as `(a, b)`, `false` as `(b, a)`.  Returns the
verdicts in call order and the final state. -/
def runQueries (oracle : Oracle) (enableCache : Bool) (a b : String) :
    List Bool → AnalyzerState → List Int × AnalyzerState
  | [], s => ([], s)
  | q :: qs, s =>
    let r := if q then compare_images_order oracle enableCache s a b
             else compare_images_order oracle enableCache s b a
    let rest := runQueries oracle enableCache a b qs r.2
    (r.1 :: rest.1, rest.2)

/-- A state-threading three-way comparator, as `compare_func` closes over
the mutable analyzer. -/
abbrev StCmp (σ α : Type) := σ → α → α → Int × σ

/-- Stable insertion of one element through a stateful comparator: the
element goes in front of the first position whose comparison is not
positive.  Together with `sortCmpS` this models Python's built-in
`sorted` with `cmp_to_key` — a stable comparison sort; every property
proved below holds for any stable comparison sort. -/
def insertCmpS (cmp : StCmp σ α) (x : α) : List α → σ → List α × σ
  | [], s => ([x], s)
  | y :: ys, s =>
    let c := cmp s x y
    if c.1 ≤ 0 then (x :: y :: ys, c.2)
    else
      let rest := insertCmpS cmp x ys c.2
      (y :: rest.1, rest.2)

/-- Stable comparison sort with a stateful comparator (model of
`sorted(image_paths, key=cmp_to_key(compare_func))`). -/
def sortCmpS (cmp : StCmp σ α) : List α → σ → List α × σ
  | [], s => ([], s)
  | x :: xs, s =>
    let rest := sortCmpS cmp xs s
    insertCmpS cmp x rest.1 rest.2

/-- Model of `VLMAnalyzer.sort_images_by_content`: lists of length at
most one are returned unchanged, otherwise the paths are sorted by the
comparator built on `compare_images_order` (the progress callback only
reports and is not modelled). -/
def sort_images_by_content (oracle : Oracle) (enableCache : Bool)
    (image_paths : List String) (s : AnalyzerState) : List String × AnalyzerState :=
  if image_paths.length ≤ 1 then (image_paths, s)
  else sortCmpS (fun s a b => compare_images_order oracle enableCache s a b) image_paths s

/-! ### Lemmas about the sequence detector -/

theorem foldMin_le_mem : ∀ (t : List Nat) (a x : Nat), x ∈ a :: t → foldMin a t ≤ x := by
  intro t
  induction t with
  | nil => intro a x hx; simp at hx; simp [foldMin, hx]
  | cons b t ih =>
    intro a x hx
    rw [foldMin]
    rcases List.mem_cons.mp hx with h | h
    · exact le_trans (le_trans (ih (min a b) (min a b) (List.mem_cons_self _ _))
        (min_le_left a b)) (le_of_eq h.symm)
    · rcases List.mem_cons.mp h with h2 | h2
      · exact le_trans (le_trans (ih (min a b) (min a b) (List.mem_cons_self _ _))
          (min_le_right a b)) (le_of_eq h2.symm)
      · exact ih (min a b) x (List.mem_cons_of_mem _ h2)

theorem le_foldMax_mem : ∀ (t : List Nat) (a x : Nat), x ∈ a :: t → x ≤ foldMax a t := by
  intro t
  induction t with
  | nil => intro a x hx; simp at hx; simp [foldMax, hx]
  | cons b t ih =>
    intro a x hx
    rw [foldMax]
    rcases List.mem_cons.mp hx with h | h
    · exact le_trans (le_of_eq h) (le_trans (le_max_left a b)
        (ih (max a b) (max a b) (List.mem_cons_self _ _)))
    · rcases List.mem_cons.mp h with h2 | h2
      · exact le_trans (le_of_eq h2) (le_trans (le_max_right a b)
          (ih (max a b) (max a b) (List.mem_cons_self _ _)))
      · exact ih (max a b) x (List.mem_cons_of_mem _ h2)

theorem pyMin_le_pyMax {l : List Nat} {mn mx : Nat} (hmn : pyMin l = some mn)
    (hmx : pyMax l = some mx) : mn ≤ mx := by
  match l with
  | [] => simp [pyMin] at hmn
  | a :: t =>
    simp [pyMin] at hmn
    simp [pyMax] at hmx
    calc mn = foldMin a t := hmn.symm
      _ ≤ a := foldMin_le_mem t a a (List.mem_cons_self _ _)
      _ ≤ foldMax a t := le_foldMax_mem t a a (List.mem_cons_self _ _)
      _ = mx := hmx

theorem pairwise_lt_range' (s n : Nat) : (List.range' s n).Pairwise (· < ·) := by
  induction n generalizing s with
  | zero => simp
  | succ n ih =>
    rw [List.range'_succ]
    refine List.Pairwise.cons ?_ (ih (s + 1))
    intro m hm
    have := List.mem_range'_1.mp hm
    omega

theorem detect_missing_pairwise (file_paths : List FsPath) :
    (detect_missing file_paths).Pairwise (· < ·) := by
  rw [detect_missing]
  cases hmn : pyMin (extractedNumbers file_paths) with
  | none => simp
  | some mn =>
    cases hmx : pyMax (extractedNumbers file_paths) with
    | none => simp
    | some mx =>
      simp only
      exact (pairwise_lt_range' mn (mx + 1 - mn)).sublist (List.filter_sublist _)

theorem detect_missing_mem (file_paths : List FsPath) {mn mx : Nat}
    (hmn : pyMin (extractedNumbers file_paths) = some mn)
    (hmx : pyMax (extractedNumbers file_paths) = some mx) (k : Nat) :
    k ∈ detect_missing file_paths ↔
      mn ≤ k ∧ k ≤ mx ∧ k ∉ extractedNumbers file_paths := by
  have hle : mn ≤ mx := pyMin_le_pyMax hmn hmx
  rw [detect_missing]
  simp only [hmn, hmx]
  rw [List.mem_filter]
  rw [List.mem_range'_1]
  constructor
  · rintro ⟨⟨h1, h2⟩, h3⟩
    refine ⟨h1, by omega, ?_⟩
    simpa using h3
  · rintro ⟨h1, h2, h3⟩
    refine ⟨⟨h1, by omega⟩, ?_⟩
    simpa using h3

/-- Filenames of the file list carrying the extracted number `n`, in input
order (the contents of the group the duplicate dictionary builds for `n`). -/
def namesWith (n : Nat) (file_paths : List FsPath) : List String :=
  (file_paths.filter (fun p => extractNumber (pyStem p.base) == some n)).map (fun p => p.base)

theorem lookupG_addToGroups (gs : List (Nat × List String)) (n m : Nat) (name : String) :
    lookupG (addToGroups gs n name) m =
      if m = n then some ((lookupG gs n).getD [] ++ [name]) else lookupG gs m := by
  induction gs with
  | nil =>
    by_cases h : m = n
    · rw [if_pos h, h]; simp [addToGroups, lookupG]
    · have h' : ¬ n = m := fun hh => h hh.symm
      rw [if_neg h]; simp [addToGroups, lookupG, h']
  | cons e t ih =>
    obtain ⟨k, fs⟩ := e
    simp only [addToGroups]
    by_cases hkn : k = n
    · rw [if_pos hkn]
      by_cases hmn : m = n
      · rw [if_pos hmn]
        have hkm : k = m := by rw [hkn, hmn]
        simp [lookupG, hkm, hmn]
      · rw [if_neg hmn]
        have hkm : ¬ k = m := fun hh => hmn (hh.symm.trans hkn)
        simp only [lookupG, if_neg hkm]
    · rw [if_neg hkn]
      simp only [lookupG, ih, if_neg hkn]
      by_cases hmn : m = n
      · rw [if_pos hmn, if_pos hmn]
        have hkm : ¬ k = m := fun hh => hkn (hh.trans hmn)
        rw [if_neg hkm]
      · rw [if_neg hmn, if_neg hmn]

/-- Keys of a grouping dictionary, in insertion order. -/
def keysG (gs : List (Nat × List String)) : List Nat :=
  gs.map Prod.fst

theorem keysG_nil : keysG [] = [] := rfl

theorem keysG_cons (k : Nat) (fs : List String) (t : List (Nat × List String)) :
    keysG ((k, fs) :: t) = k :: keysG t := rfl

theorem keysG_addToGroups (gs : List (Nat × List String)) (n : Nat) (name : String) :
    keysG (addToGroups gs n name) =
      if n ∈ keysG gs then keysG gs else keysG gs ++ [n] := by
  induction gs with
  | nil => simp [addToGroups, keysG]
  | cons e t ih =>
    obtain ⟨k, fs⟩ := e
    simp only [addToGroups]
    by_cases hkn : k = n
    · rw [if_pos hkn, keysG_cons]
      have hmem : n ∈ keysG ((k, fs) :: t) := by
        rw [keysG_cons]
        exact List.mem_cons.mpr (Or.inl hkn.symm)
      rw [if_pos hmem, keysG_cons]
    · rw [if_neg hkn]
      have hnk : ¬ n = k := fun hh => hkn hh.symm
      rw [keysG_cons]
      by_cases hm : n ∈ keysG t
      · have hmem : n ∈ keysG ((k, fs) :: t) := by
          rw [keysG_cons]; exact List.mem_cons.mpr (Or.inr hm)
        rw [if_pos hmem, ih, if_pos hm, keysG_cons]
      · have hmem : n ∉ keysG ((k, fs) :: t) := by
          rw [keysG_cons]
          intro hc
          rcases List.mem_cons.mp hc with hc | hc
          · exact hnk hc
          · exact hm hc
        rw [if_neg hmem, ih, if_neg hm, keysG_cons, List.cons_append]

theorem nodup_keysG_addToGroups {gs : List (Nat × List String)} (h : (keysG gs).Nodup)
    (n : Nat) (name : String) : (keysG (addToGroups gs n name)).Nodup := by
  rw [keysG_addToGroups]
  by_cases hm : n ∈ keysG gs
  · rw [if_pos hm]; exact h
  · rw [if_neg hm]
    simp [List.nodup_append, h, hm]

/-- Composition of a pending group with the groups a suffix of the file
list still contributes. -/
def opApp : Option (List String) → List String → Option (List String)
  | some fs, l => some (fs ++ l)
  | none, [] => none
  | none, l => some l

theorem lookupG_buildGroups :
    ∀ (ps : List FsPath) (gs : List (Nat × List String)) (m : Nat),
      lookupG (buildGroups gs ps) m = opApp (lookupG gs m) (namesWith m ps) := by
  intro ps
  induction ps with
  | nil =>
    intro gs m
    simp only [buildGroups, namesWith, List.filter_nil, List.map_nil]
    cases lookupG gs m <;> simp [opApp]
  | cons p ps ih =>
    intro gs m
    cases hx : extractNumber (pyStem p.base) with
    | none =>
      rw [buildGroups, hx, ih]
      have : namesWith m (p :: ps) = namesWith m ps := by
        simp [namesWith, List.filter_cons, hx]
      rw [this]
    | some n =>
      rw [buildGroups, hx, ih, lookupG_addToGroups]
      by_cases hmn : m = n
      · subst hmn
        have : namesWith m (p :: ps) = p.base :: namesWith m ps := by
          simp [namesWith, List.filter_cons, hx]
        rw [this, if_pos rfl]
        cases lookupG gs m <;> simp [opApp]
      · have : namesWith m (p :: ps) = namesWith m ps := by
          have : (extractNumber (pyStem p.base) == some m) = false := by
            simp [hx]; exact fun h => absurd h.symm hmn
          simp [namesWith, List.filter_cons, this]
        rw [this, if_neg hmn]

theorem nodup_keysG_buildGroups :
    ∀ (ps : List FsPath) (gs : List (Nat × List String)), (keysG gs).Nodup →
      (keysG (buildGroups gs ps)).Nodup := by
  intro ps
  induction ps with
  | nil => intro gs h; simpa [buildGroups] using h
  | cons p ps ih =>
    intro gs h
    cases hx : extractNumber (pyStem p.base) with
    | none => rw [buildGroups, hx]; exact ih gs h
    | some n => rw [buildGroups, hx]; exact ih _ (nodup_keysG_addToGroups h n p.base)

theorem mem_iff_lookupG :
    ∀ (gs : List (Nat × List String)), (keysG gs).Nodup → ∀ (n : Nat) (fs : List String),
      ((n, fs) ∈ gs ↔ lookupG gs n = some fs) := by
  intro gs
  induction gs with
  | nil => intro _ n fs; simp [lookupG]
  | cons e t ih =>
    intro h n fs
    obtain ⟨k, v⟩ := e
    rw [keysG_cons] at h
    have hk : k ∉ keysG t := (List.nodup_cons.mp h).1
    have ht : (keysG t).Nodup := (List.nodup_cons.mp h).2
    simp only [lookupG, List.mem_cons]
    by_cases hkn : k = n
    · rw [if_pos hkn]
      constructor
      · rintro (h1 | h1)
        · rw [Prod.mk.injEq] at h1
          rw [h1.2]
        · exfalso
          apply hk
          rw [hkn]
          exact List.mem_map_of_mem Prod.fst h1
      · intro h1
        have hv : v = fs := by simpa using h1
        exact Or.inl (by rw [Prod.mk.injEq]; exact ⟨hkn.symm, hv.symm⟩)
    · rw [if_neg hkn]
      rw [← ih ht n fs]
      constructor
      · rintro (h1 | h1)
        · rw [Prod.mk.injEq] at h1
          exact absurd h1.1.symm hkn
        · exact h1
      · exact fun h1 => Or.inr h1

theorem mem_detect_duplicates (file_paths : List FsPath) (n : Nat) (fs : List String) :
    (n, fs) ∈ detect_duplicates file_paths ↔
      fs = namesWith n file_paths ∧ 1 < fs.length := by
  rw [detect_duplicates, List.mem_filter]
  have hnodup := nodup_keysG_buildGroups file_paths [] (by simp [keysG])
  rw [mem_iff_lookupG _ hnodup n fs, lookupG_buildGroups file_paths [] n]
  have hl : lookupG [] n = none := rfl
  rw [hl]
  constructor
  · rintro ⟨h1, h2⟩
    cases hnw : namesWith n file_paths with
    | nil => rw [hnw] at h1; exact absurd h1 (by simp [opApp])
    | cons a l =>
      rw [hnw] at h1
      have h3 : fs = a :: l := by
        have : opApp none (a :: l) = some (a :: l) := rfl
        rw [this] at h1
        simpa using h1.symm
      exact ⟨h3, by simpa using h2⟩
  · rintro ⟨h1, h2⟩
    cases hnw : namesWith n file_paths with
    | nil =>
      rw [hnw] at h1
      subst h1
      simp at h2
    | cons a l =>
      rw [hnw] at h1
      subst h1
      refine ⟨rfl, by simpa using h2⟩

theorem dedupAdj_cons_head : ∀ (t : List Nat) (b : Nat), ∃ r, dedupAdj (b :: t) = b :: r := by
  intro t
  induction t with
  | nil => intro b; exact ⟨[], rfl⟩
  | cons c t ih =>
    intro b
    by_cases hbc : b = c
    · obtain ⟨r, hr⟩ := ih c
      exact ⟨r, by rw [dedupAdj, if_pos hbc, hr, hbc]⟩
    · exact ⟨dedupAdj (c :: t), by rw [dedupAdj, if_neg hbc]⟩

theorem mem_dedupAdj : ∀ (l : List Nat) (k : Nat), k ∈ dedupAdj l ↔ k ∈ l := by
  intro l
  induction l with
  | nil => intro k; simp [dedupAdj]
  | cons a t ih =>
    intro k
    cases t with
    | nil => simp [dedupAdj]
    | cons b t2 =>
      by_cases hab : a = b
      · rw [dedupAdj, if_pos hab, ih k]
        subst hab
        simp only [List.mem_cons]
        tauto
      · rw [dedupAdj, if_neg hab]
        simp only [List.mem_cons, ih k]

theorem pairwise_lt_dedupAdj :
    ∀ (l : List Nat), l.Pairwise (· ≤ ·) → (dedupAdj l).Pairwise (· < ·) := by
  intro l
  induction l with
  | nil => intro _; simp [dedupAdj]
  | cons a t ih =>
    intro h
    cases t with
    | nil => simp [dedupAdj]
    | cons b t2 =>
      have htail : (b :: t2).Pairwise (· ≤ ·) := (List.pairwise_cons.mp h).2
      by_cases hab : a = b
      · rw [dedupAdj, if_pos hab]
        exact ih htail
      · rw [dedupAdj, if_neg hab]
        refine List.pairwise_cons.mpr ⟨?_, ih htail⟩
        intro x hx
        have hxm : x ∈ b :: t2 := (mem_dedupAdj _ x).mp hx
        have hax : a ≤ b := (List.pairwise_cons.mp h).1 b (List.mem_cons_self _ _)
        have halt : a < b := lt_of_le_of_ne hax hab
        rcases List.mem_cons.mp hxm with hxb | hxt
        · rw [hxb]; exact halt
        · have hbx : b ≤ x := (List.pairwise_cons.mp htail).1 x hxt
          omega

theorem adjacentGaps_cons_cons (a b : Nat) (t : List Nat) :
    adjacentGaps (a :: b :: t) =
      if 1 < b - a then (a, b) :: adjacentGaps (b :: t) else adjacentGaps (b :: t) := by
  rw [adjacentGaps, adjacentGaps]
  simp only [List.tail_cons, List.zip_cons_cons]
  rw [List.filter_cons]
  by_cases h : 1 < b - a
  · simp [h]
  · simp [h]

theorem adjacentGaps_dedupAdj :
    ∀ (l : List Nat), l.Pairwise (· ≤ ·) → adjacentGaps (dedupAdj l) = adjacentGaps l := by
  intro l
  induction l with
  | nil => intro _; rfl
  | cons a t ih =>
    intro h
    cases t with
    | nil => rfl
    | cons b t2 =>
      have htail : (b :: t2).Pairwise (· ≤ ·) := (List.pairwise_cons.mp h).2
      by_cases hab : a = b
      · rw [dedupAdj, if_pos hab, ih htail, adjacentGaps_cons_cons]
        have : ¬ 1 < b - a := by
          rw [hab]
          omega
        rw [if_neg this]
      · rw [dedupAdj, if_neg hab]
        obtain ⟨r, hr⟩ := dedupAdj_cons_head t2 b
        rw [hr, adjacentGaps_cons_cons, ← hr, ih htail, adjacentGaps_cons_cons]

theorem numSort_pairwise (l : List Nat) : (numSort l).Pairwise (· ≤ ·) :=
  List.sorted_insertionSort _ l

theorem mem_numSort (l : List Nat) (k : Nat) : k ∈ numSort l ↔ k ∈ l :=
  (List.perm_insertionSort _ l).mem_iff

/-! ### Claims about the sequence detector -/

/-- Demonstration file list of the specification: four filenames whose
stems yield the numbers 1, 2, 4 and 5. -/
def demoSeq : List FsPath :=
  [⟨["d"], "page_001.jpg"⟩, ⟨["d"], "page_002.jpg"⟩,
   ⟨["d"], "page_004.jpg"⟩, ⟨["d"], "page_005.jpg"⟩]

/-- Claim C7: on any file list with at least one extractable number,
`validate_sequence` reports as missing exactly the ascending sequence of
integers between the minimum and the maximum that are not among the
extracted numbers, reports as duplicates exactly the numbers carried by
more than one filename mapped to those filenames, and is valid exactly
when both reports are empty; on filenames yielding 1, 2, 4, 5 it reports
missing `[3]`, no duplicates, invalid, minimum 1 and maximum 5. -/
theorem claim_C7_validate_sequence (file_paths : List FsPath)
    (_h : extractedNumbers file_paths ≠ []) :
    (validate_sequence file_paths).missing_numbers.Pairwise (· < ·)
    ∧ (∀ mn mx : Nat,
        (validate_sequence file_paths).min_number = some mn →
        (validate_sequence file_paths).max_number = some mx →
        ∀ k : Nat, k ∈ (validate_sequence file_paths).missing_numbers ↔
          (mn ≤ k ∧ k ≤ mx ∧ k ∉ extractedNumbers file_paths))
    ∧ (∀ (n : Nat) (fs : List String),
        (n, fs) ∈ (validate_sequence file_paths).duplicate_numbers ↔
          (fs = namesWith n file_paths ∧ 1 < fs.length))
    ∧ ((validate_sequence file_paths).is_valid = true ↔
        ((validate_sequence file_paths).missing_numbers = []
          ∧ (validate_sequence file_paths).duplicate_numbers = []))
    ∧ validate_sequence demoSeq =
        { is_valid := false, missing_numbers := [3], duplicate_numbers := [],
          total_files := 4, min_number := some 1, max_number := some 5 } := by
  refine ⟨?_, ?_, ?_, ?_, ?_⟩
  · exact detect_missing_pairwise file_paths
  · intro mn mx hmn hmx k
    exact detect_missing_mem file_paths hmn hmx k
  · intro n fs
    exact mem_detect_duplicates file_paths n fs
  · simp [validate_sequence, List.length_eq_zero]
  · decide

/-- Witness for claim C7: the demonstration list has extractable numbers,
and the theorem applies to it. -/
theorem claim_C7_witness :
    extractedNumbers demoSeq ≠ []
    ∧ (validate_sequence demoSeq).missing_numbers.Pairwise (· < ·) :=
  ⟨by decide, (claim_C7_validate_sequence demoSeq (by decide)).1⟩

/-- Claim C9: `get_sequence_gaps` returns exactly the adjacent pairs with
difference above one of the distinct sorted set of extracted numbers —
the code iterates over the sorted multiset without deduplication, and
that coincides with the distinct-set reading because duplicate neighbours
have difference zero.  The list `dedupAdj (numSort ...)` is certified to
be that distinct sorted set: strictly ascending with the same members as
the extraction. -/
theorem claim_C9_sequence_gaps (file_paths : List FsPath) :
    get_sequence_gaps file_paths
        = adjacentGaps (dedupAdj (numSort (extractedNumbers file_paths)))
    ∧ (dedupAdj (numSort (extractedNumbers file_paths))).Pairwise (· < ·)
    ∧ (∀ k : Nat, k ∈ dedupAdj (numSort (extractedNumbers file_paths)) ↔
        k ∈ extractedNumbers file_paths) := by
  refine ⟨?_, ?_, ?_⟩
  · rw [get_sequence_gaps]
    cases hn : extractedNumbers file_paths with
    | nil => rfl
    | cons a t => exact (adjacentGaps_dedupAdj _ (numSort_pairwise _)).symm
  · exact pairwise_lt_dedupAdj _ (numSort_pairwise _)
  · intro k
    rw [mem_dedupAdj, mem_numSort]

/-- Claim C10: when no filename stem matches the numeric pattern
(including the empty list), `validate_sequence` reports a valid sequence
with empty missing and duplicate reports, the input length as total, and
absent minimum and maximum. -/
theorem claim_C10_no_numbers (file_paths : List FsPath)
    (h : ∀ p ∈ file_paths, extractNumber (pyStem p.base) = none) :
    validate_sequence file_paths =
      { is_valid := true, missing_numbers := [], duplicate_numbers := [],
        total_files := file_paths.length, min_number := none, max_number := none } := by
  have hnum : extractedNumbers file_paths = [] := by
    rw [extractedNumbers, List.filterMap_eq_nil_iff]
    exact h
  have hgroups : ∀ ps, (∀ p ∈ ps, extractNumber (pyStem p.base) = none) →
      buildGroups ([] : List (Nat × List String)) ps = [] := by
    intro ps
    induction ps with
    | nil => intro _; rfl
    | cons p t ih =>
      intro hp
      rw [buildGroups, hp p (List.mem_cons_self _ _)]
      exact ih (fun q hq => hp q (List.mem_cons_of_mem _ hq))
  have hmiss : detect_missing file_paths = [] := by
    rw [detect_missing]
    simp only [hnum]
    rfl
  have hdup : detect_duplicates file_paths = [] := by
    rw [detect_duplicates, hgroups file_paths h]
    rfl
  rw [validate_sequence]
  simp only [hmiss, hdup, hnum]
  rfl

/-- Witness for claim C10: a list of two files without digits in their
stems yields the all-clear report. -/
theorem claim_C10_witness :
    (∀ p ∈ [(⟨["d"], "cover.jpg"⟩ : FsPath), ⟨["d"], "back.png"⟩],
        extractNumber (pyStem p.base) = none)
    ∧ validate_sequence [(⟨["d"], "cover.jpg"⟩ : FsPath), ⟨["d"], "back.png"⟩] =
        { is_valid := true, missing_numbers := [], duplicate_numbers := [],
          total_files := 2, min_number := none, max_number := none } :=
  ⟨by decide, claim_C10_no_numbers _ (by decide)⟩

/-! ### Lemmas about the renamer -/

theorem execOp_fields (dry_run : Bool) (fs : Fs) (op : RenameOp) :
    (execOp dry_run fs op).2.original = op.original_path
    ∧ (execOp dry_run fs op).2.new = op.final_path
    ∧ (execOp dry_run fs op).2.number = op.number := by
  rw [execOp]
  split
  · exact ⟨rfl, rfl, rfl⟩
  · split
    · exact ⟨rfl, rfl, rfl⟩
    · split
      · split
        · exact ⟨rfl, rfl, rfl⟩
        · split
          · exact ⟨rfl, rfl, rfl⟩
          · exact ⟨rfl, rfl, rfl⟩
      · split
        · exact ⟨rfl, rfl, rfl⟩
        · exact ⟨rfl, rfl, rfl⟩

theorem execOp_error_iff (dry_run : Bool) (fs : Fs) (op : RenameOp) :
    ((execOp dry_run fs op).2.error.isSome ↔ (execOp dry_run fs op).2.success = false) := by
  rw [execOp]
  split
  · simp
  · split
    · simp
    · split
      · split
        · simp
        · split
          · simp
          · simp
      · split
        · simp
        · simp

theorem execOps_length (dry_run : Bool) :
    ∀ (ops : List RenameOp) (fs : Fs), (execOps dry_run fs ops).2.length = ops.length := by
  intro ops
  induction ops with
  | nil => intro fs; rfl
  | cons op ops ih =>
    intro fs
    rw [execOps]
    simp only [List.length_cons, ih]

theorem execOps_get? (dry_run : Bool) :
    ∀ (ops : List RenameOp) (fs : Fs) (i : Nat) (op : RenameOp), ops.get? i = some op →
      ∃ e, (execOps dry_run fs ops).2.get? i = some e
        ∧ e.original = op.original_path ∧ e.new = op.final_path ∧ e.number = op.number := by
  intro ops
  induction ops with
  | nil => intro fs i op h; simp at h
  | cons op0 ops ih =>
    intro fs i op h
    cases i with
    | zero =>
      have hop : op0 = op := by simpa using h
      subst hop
      refine ⟨(execOp dry_run fs op0).2, rfl, ?_, ?_, ?_⟩
      · exact (execOp_fields dry_run fs op0).1
      · exact (execOp_fields dry_run fs op0).2.1
      · exact (execOp_fields dry_run fs op0).2.2
    | succ j =>
      have h2 : ops.get? j = some op := by simpa using h
      obtain ⟨e, he, h3⟩ := ih (execOp dry_run fs op0).1 j op h2
      exact ⟨e, by rw [execOps]; simpa using he, h3⟩

theorem execOps_error_iff (dry_run : Bool) :
    ∀ (ops : List RenameOp) (fs : Fs) (e : LogEntry), e ∈ (execOps dry_run fs ops).2 →
      (e.error.isSome ↔ e.success = false) := by
  intro ops
  induction ops with
  | nil => intro fs e h; simp [execOps] at h
  | cons op ops ih =>
    intro fs e h
    rw [execOps] at h
    rcases List.mem_cons.mp h with h1 | h1
    · rw [h1]; exact execOp_error_iff dry_run fs op
    · exact ih _ e h1

theorem planRenames_length (tdir : List String) (pre : String) (digits : Nat) :
    ∀ (ps : List FsPath) (idx : Nat), (planRenames tdir pre digits idx ps).length = ps.length := by
  intro ps
  induction ps with
  | nil => intro idx; rfl
  | cons p ps ih => intro idx; simp [planRenames, ih]

theorem planRenames_get? (tdir : List String) (pre : String) (digits : Nat) :
    ∀ (ps : List FsPath) (idx i : Nat) (p : FsPath), ps.get? i = some p →
      (planRenames tdir pre digits idx ps).get? i = some
        { original_path := p
          final_path := ⟨tdir, pre ++ zfill (idx + i) digits ++ pySuffix p.base⟩
          number := idx + i } := by
  intro ps
  induction ps with
  | nil => intro idx i p h; simp at h
  | cons q ps ih =>
    intro idx i p h
    cases i with
    | zero =>
      have hq : q = p := by simpa using h
      subst hq
      simp [planRenames]
    | succ j =>
      have h2 : ps.get? j = some p := by simpa using h
      have := ih (idx + 1) j p h2
      rw [planRenames]
      simpa [Nat.add_assoc, Nat.add_comm 1 j] using this

/-! ### Claims about the renamer -/

/-- Claim C5: for a non-empty input list, the plan for the file at
position `i` targets the directory (the given one, defaulting to the
parent of the first file) joined with the prefix, the zero-padded number
`start_number + i` and the file's original extension, and the returned
log has exactly one entry per input file, in input order, whose number
field is `start_number + i`.  All plans are functions of the inputs
alone: `planRenames` takes no filesystem argument, so every plan exists
before the first mutation of `execOps`. -/
theorem claim_C5_planning (dry_run backup : Bool) (ts : String) (fs : Fs)
    (p0 : FsPath) (rest : List FsPath) (target_dir : Option (List String))
    (pre : String) (digits start_number : Nat) :
    (rename_files dry_run backup ts fs (p0 :: rest) target_dir pre digits start_number).2.length
        = (p0 :: rest).length
    ∧ (∀ (i : Nat) (p : FsPath), (p0 :: rest).get? i = some p →
        ∃ e, (rename_files dry_run backup ts fs (p0 :: rest) target_dir pre digits
                start_number).2.get? i = some e
          ∧ e.original = p
          ∧ e.number = start_number + i
          ∧ e.new = ⟨target_dir.getD p0.dir,
              pre ++ zfill (start_number + i) digits ++ pySuffix p.base⟩) := by
  rw [rename_files]
  constructor
  · rw [execOps_length, planRenames_length]
  · intro i p hp
    have hplan := planRenames_get? (target_dir.getD p0.dir) pre digits (p0 :: rest)
      start_number i p hp
    obtain ⟨e, he, h1, h2, h3⟩ := execOps_get? dry_run _ _ i _ hplan
    exact ⟨e, he, h1, h3, h2⟩

/-- Witness for claim C5 at a concrete two-file batch: the entry at
position 1 is planned as `page_006` with the original extension. -/
theorem claim_C5_witness :
    ([(⟨["d"], "x.png"⟩ : FsPath), ⟨["d"], "y.jpg"⟩].get? 1 = some ⟨["d"], "y.jpg"⟩)
    ∧ (∃ e, (rename_files true false "t" [] [⟨["d"], "x.png"⟩, ⟨["d"], "y.jpg"⟩]
          none "page_" 3 5).2.get? 1 = some e
        ∧ e.original = ⟨["d"], "y.jpg"⟩
        ∧ e.number = 5 + 1
        ∧ e.new = ⟨(none : Option (List String)).getD (⟨["d"], "x.png"⟩ : FsPath).dir,
            "page_" ++ zfill (5 + 1) 3 ++ pySuffix (⟨["d"], "y.jpg"⟩ : FsPath).base⟩) :=
  ⟨rfl,
   (claim_C5_planning true false "t" [] ⟨["d"], "x.png"⟩ [⟨["d"], "y.jpg"⟩]
      none "page_" 3 5).2 1 ⟨["d"], "y.jpg"⟩ rfl⟩

/-- Claim C6: during execution every item's filesystem error is caught
and recorded on that item's entry, never aborting the remaining items:
the log always has exactly one entry per input file, and an entry carries
an error message exactly when its success flag is false. -/
theorem claim_C6_per_item_errors (backup : Bool) (ts : String) (fs : Fs)
    (file_paths : List FsPath) (target_dir : Option (List String))
    (pre : String) (digits start_number : Nat) :
    (rename_files false backup ts fs file_paths target_dir pre digits start_number).2.length
        = file_paths.length
    ∧ (∀ e ∈ (rename_files false backup ts fs file_paths target_dir pre digits
          start_number).2, (e.error.isSome ↔ e.success = false)) := by
  cases file_paths with
  | nil => exact ⟨rfl, by intro e h; simp [rename_files] at h⟩
  | cons p0 rest =>
    rw [rename_files]
    constructor
    · rw [execOps_length, planRenames_length]
    · intro e he
      exact execOps_error_iff false _ _ e he

/-- Demonstration filesystem for claim C6's witness: the second listed
file is absent, so its rename fails while the first and third succeed. -/
def demoFs6 : Fs :=
  [(⟨["d"], "a.jpg"⟩, 10), (⟨["d"], "c.jpg"⟩, 30)]

/-- Witness for claim C6 at a concrete batch with a failing middle item:
three entries are produced, the failing one recorded with an error. -/
theorem claim_C6_witness :
    ((rename_files false false "t" demoFs6
        [⟨["d"], "a.jpg"⟩, ⟨["d"], "b.jpg"⟩, ⟨["d"], "c.jpg"⟩]
        none "page_" 3 1).2.length = 3
      ∧ (∀ e ∈ (rename_files false false "t" demoFs6
          [⟨["d"], "a.jpg"⟩, ⟨["d"], "b.jpg"⟩, ⟨["d"], "c.jpg"⟩]
          none "page_" 3 1).2, (e.error.isSome ↔ e.success = false)))
    ∧ (rename_files false false "t" demoFs6
        [⟨["d"], "a.jpg"⟩, ⟨["d"], "b.jpg"⟩, ⟨["d"], "c.jpg"⟩]
        none "page_" 3 1).2.map LogEntry.success = [true, false, true] :=
  ⟨claim_C6_per_item_errors false "t" demoFs6
    [⟨["d"], "a.jpg"⟩, ⟨["d"], "b.jpg"⟩, ⟨["d"], "c.jpg"⟩] none "page_" 3 1,
   by decide⟩

/-- Demonstration filesystem for claim C8. -/
def demoFs8 : Fs :=
  [(⟨["d"], "a.jpg"⟩, 7)]

/-- Counterexample for claim C8 as stated: on an empty file list,
`rename_files` does not surface any failed top-level operation — it
returns the ordinary value of a successful no-op, the unchanged
filesystem paired with an empty log, and raises nothing (in the source
the branch logs a warning and returns `[]`). -/
theorem claim_C8_counterexample :
    rename_files false true "t" demoFs8 [] none "page_" 3 1 = (demoFs8, []) := by
  decide

/-- Claim C8 as amended: called with an empty file list, `rename_files`
returns immediately with an empty log and no error; no partial state is
created — the filesystem (hence any backup directory) is untouched and
the log has no entries at all, in particular none marked success. -/
theorem claim_C8_empty_list (dry_run backup : Bool) (ts : String) (fs : Fs)
    (target_dir : Option (List String)) (pre : String) (digits start_number : Nat) :
    rename_files dry_run backup ts fs [] target_dir pre digits start_number = (fs, []) :=
  rfl

/-- Shared directory of the three-cycle demonstration of claim C1. -/
def cycleDir : List String := ["m"]

/-- Filesystem before the three-cycle rename batch: three files holding
pairwise distinct contents 3, 1 and 2. -/
def cycleFs : Fs :=
  [(⟨cycleDir, "003.jpg"⟩, 3), (⟨cycleDir, "001.jpg"⟩, 1), (⟨cycleDir, "002.jpg"⟩, 2)]

/-- The batch order realising a three-cycle of names: the file now called
`003.jpg` is planned to become `001.jpg`, `001.jpg` to become `002.jpg`
and `002.jpg` to become `003.jpg`. -/
def cyclePaths : List FsPath :=
  [⟨cycleDir, "003.jpg"⟩, ⟨cycleDir, "001.jpg"⟩, ⟨cycleDir, "002.jpg"⟩]

/-- Claim C1 evaluated at the three-cycle: the two-step indirect rename
of the source moves the original through a temporary name and then
renames it onto the still-occupied final name, which POSIX `os.rename`
replaces silently.  After the batch the filesystem holds a single file —
the contents 1 and 2 are destroyed, the planned names `002.jpg` and
`003.jpg` of the inputs `001.jpg` and `002.jpg` do not hold their
contents — while every log entry reports success. -/
theorem claim_C1_cycle_data_loss :
    (rename_files false false "t" cycleFs cyclePaths none "" 3 1).1
        = [(⟨cycleDir, "003.jpg"⟩, 3)]
    ∧ (rename_files false false "t" cycleFs cyclePaths none "" 3 1).2.map LogEntry.success
        = [true, true, true]
    ∧ fsLookup (rename_files false false "t" cycleFs cyclePaths none "" 3 1).1
        ⟨cycleDir, "002.jpg"⟩ = none
    ∧ (∀ pc ∈ (rename_files false false "t" cycleFs cyclePaths none "" 3 1).1, pc.2 ≠ 1) := by
  decide

/-! ### Lemmas about the analyzer -/

theorem runQueries_cached (oracle : Oracle) (a b : String) (hab : a ≠ b)
    (q0 : Bool) (v : Int) (n : Nat) :
    ∀ qs : List Bool,
      runQueries oracle true a b qs
          ⟨[(if q0 then (a, b) else (b, a), v)], n⟩
        = (qs.map (fun q => if q = q0 then v else -v),
           ⟨[(if q0 then (a, b) else (b, a), v)], n⟩) := by
  have hba : b ≠ a := Ne.symm hab
  intro qs
  induction qs with
  | nil => rfl
  | cons q qs ih =>
    have hstep :
        (if q then
            compare_images_order oracle true ⟨[(if q0 then (a, b) else (b, a), v)], n⟩ a b
          else
            compare_images_order oracle true ⟨[(if q0 then (a, b) else (b, a), v)], n⟩ b a)
          = ((if q = q0 then v else -v),
             ⟨[(if q0 then (a, b) else (b, a), v)], n⟩) := by
      cases q <;> cases q0 <;>
        simp [compare_images_order, cacheLookup, Prod.ext_iff, hab, hba]
    rw [runQueries, hstep, ih]
    simp

theorem insertCmpS_perm (cmp : StCmp σ α) (x : α) :
    ∀ (l : List α) (s : σ), (insertCmpS cmp x l s).1.Perm (x :: l) := by
  intro l
  induction l with
  | nil => intro s; rfl
  | cons y ys ih =>
    intro s
    rw [insertCmpS]
    by_cases h : (cmp s x y).1 ≤ 0
    · rw [if_pos h]
    · rw [if_neg h]
      refine List.Perm.trans (List.Perm.cons y (ih (cmp s x y).2)) ?_
      exact List.Perm.swap x y ys

theorem sortCmpS_perm (cmp : StCmp σ α) :
    ∀ (l : List α) (s : σ), (sortCmpS cmp l s).1.Perm l := by
  intro l
  induction l with
  | nil => intro s; rfl
  | cons x xs ih =>
    intro s
    rw [sortCmpS]
    exact List.Perm.trans (insertCmpS_perm cmp x _ _) (List.Perm.cons x (ih s))

/-- Invariant for claim C4: every cached verdict is the neutral `0`. -/
def cacheAllZero (s : AnalyzerState) : Prop :=
  ∀ (p : String × String) (v : Int), cacheLookup s.cache p = some v → v = 0

theorem compare_images_order_allZero (oracle : Oracle) (enableCache : Bool)
    (h : ∀ a b, oracle a b = some 0 ∨ oracle a b = none) (s : AnalyzerState)
    (hs : cacheAllZero s) (a b : String) :
    (compare_images_order oracle enableCache s a b).1 = 0
    ∧ cacheAllZero (compare_images_order oracle enableCache s a b).2 := by
  rw [compare_images_order]
  cases hck : (if enableCache then cacheLookup s.cache (a, b) else none) with
  | some v =>
    have hv : v = 0 := by
      cases enableCache with
      | false => simp at hck
      | true => exact hs _ v (by simpa using hck)
    exact ⟨hv, hs⟩
  | none =>
    cases hrk : (if enableCache then cacheLookup s.cache (b, a) else none) with
    | some v =>
      have hv : v = 0 := by
        cases enableCache with
        | false => simp at hrk
        | true => exact hs _ v (by simpa using hrk)
      simp only [hv]
      exact ⟨by simp, hs⟩
    | none =>
      cases hor : oracle a b with
      | none => exact ⟨rfl, fun p v hp => hs p v hp⟩
      | some v =>
        have hv : v = 0 := by
          rcases h a b with h0 | h0
          · rw [hor] at h0; simpa using h0
          · rw [hor] at h0; simp at h0
        subst hv
        refine ⟨rfl, ?_⟩
        intro p w hp
        cases enableCache with
        | false => exact hs p w (by simpa using hp)
        | true =>
          simp only [if_pos trivial] at hp
          rw [cacheLookup] at hp
          by_cases hpe : ((a, b) : String × String) = p
          · rw [if_pos hpe] at hp
            simpa using hp.symm
          · rw [if_neg hpe] at hp
            exact hs p w hp

theorem insertCmpS_allZero (cmp : StCmp σ α) (P : σ → Prop)
    (hcmp : ∀ (s : σ) (x y : α), P s → (cmp s x y).1 = 0 ∧ P (cmp s x y).2) :
    ∀ (l : List α) (x : α) (s : σ), P s →
      (insertCmpS cmp x l s).1 = x :: l ∧ P (insertCmpS cmp x l s).2 := by
  intro l
  induction l with
  | nil => intro x s hs; exact ⟨rfl, hs⟩
  | cons y ys _ih =>
    intro x s hs
    rw [insertCmpS]
    have h0 := hcmp s x y hs
    have hle : (cmp s x y).1 ≤ 0 := le_of_eq h0.1
    rw [if_pos hle]
    exact ⟨rfl, h0.2⟩

theorem sortCmpS_allZero (cmp : StCmp σ α) (P : σ → Prop)
    (hcmp : ∀ (s : σ) (x y : α), P s → (cmp s x y).1 = 0 ∧ P (cmp s x y).2) :
    ∀ (l : List α) (s : σ), P s →
      (sortCmpS cmp l s).1 = l ∧ P (sortCmpS cmp l s).2 := by
  intro l
  induction l with
  | nil => intro s hs; exact ⟨rfl, hs⟩
  | cons x xs ih =>
    intro s hs
    rw [sortCmpS]
    obtain ⟨hrest, hP⟩ := ih s hs
    obtain ⟨h1, h2⟩ :=
      insertCmpS_allZero cmp P hcmp (sortCmpS cmp xs s).1 x (sortCmpS cmp xs s).2 hP
    exact ⟨h1.trans (by rw [hrest]), h2⟩

/-! ### Claims about the analyzer -/

/-- Claim C2: with the cache enabled and a fresh analyzer, across any
sequence of `compare_images_order` calls mixing the orders of one
unordered pair, the oracle is consulted exactly once (for the first
query), and every later query returns the stored verdict when it repeats
the first order and its negation when it reverses it (so `-1` and `1`
swap while `0` stays `0`), without further consultations. -/
theorem claim_C2_cache_at_most_once (oracle : Oracle) (a b : String) (hab : a ≠ b)
    (q0 : Bool) (qs : List Bool) (v : Int)
    (hv : (if q0 then oracle a b else oracle b a) = some v) :
    (runQueries oracle true a b (q0 :: qs) initState).2.calls = 1
    ∧ (runQueries oracle true a b (q0 :: qs) initState).1
        = (q0 :: qs).map (fun q => if q = q0 then v else -v) := by
  have hstep :
      (if q0 then compare_images_order oracle true initState a b
        else compare_images_order oracle true initState b a)
        = (v, ⟨[(if q0 then (a, b) else (b, a), v)], 1⟩) := by
    cases q0 <;> simp_all [compare_images_order, initState, cacheLookup]
  have h0 : runQueries oracle true a b (q0 :: qs) initState
      = ((q0 :: qs).map (fun q => if q = q0 then v else -v),
         ⟨[(if q0 then (a, b) else (b, a), v)], 1⟩) := by
    rw [runQueries, hstep, runQueries_cached oracle a b hab q0 v 1 qs]
    simp
  rw [h0]
  exact ⟨rfl, rfl⟩

/-- Oracle of the witnesses that always answers that the first image
comes first. -/
def oneOracle : Oracle := fun _ _ => some 1

/-- Witness for claim C2: a fresh analyzer queried as `(a, b)`, then
`(b, a)`, then `(a, b)` consults the oracle once and answers 1, -1, 1. -/
theorem claim_C2_witness :
    "a" ≠ "b"
    ∧ ((runQueries oneOracle true "a" "b" [true, false, true] initState).2.calls = 1
      ∧ (runQueries oneOracle true "a" "b" [true, false, true] initState).1
          = [true, false, true].map (fun q => if q = true then (1 : Int) else -1)) :=
  ⟨by decide,
   claim_C2_cache_at_most_once oneOracle "a" "b" (by decide) true [false, true] 1 rfl⟩

/-- Claim C3: an oracle failure (a raised exception, modelled as `none`)
on an uncached pair makes the comparator return the neutral verdict `0`
instead of propagating the error, and whatever the oracle does,
`sort_images_by_content` returns a permutation of its input — every item
appears exactly once. -/
theorem claim_C3_failure_degrades (oracle : Oracle) (enableCache : Bool)
    (s s0 : AnalyzerState) (a b : String) (image_paths : List String)
    (h1 : cacheLookup s.cache (a, b) = none)
    (h2 : cacheLookup s.cache (b, a) = none)
    (h3 : oracle a b = none) :
    (compare_images_order oracle enableCache s a b).1 = 0
    ∧ ((sort_images_by_content oracle enableCache image_paths s0).1).Perm image_paths := by
  constructor
  · cases enableCache <;> simp [compare_images_order, h1, h2, h3]
  · rw [sort_images_by_content]
    by_cases hlen : image_paths.length ≤ 1
    · rw [if_pos hlen]
    · rw [if_neg hlen]
      exact sortCmpS_perm _ image_paths s0

/-- Oracle of the witnesses that always raises. -/
def failOracle : Oracle := fun _ _ => none

/-- Witness for claim C3: a failing oracle on a fresh analyzer yields
verdict 0 and a sort that permutes three concrete paths. -/
theorem claim_C3_witness :
    (cacheLookup initState.cache ("x", "y") = none
      ∧ cacheLookup initState.cache ("y", "x") = none
      ∧ failOracle "x" "y" = none)
    ∧ ((compare_images_order failOracle true initState "x" "y").1 = 0
      ∧ ((sort_images_by_content failOracle true ["p", "q", "r"] initState).1).Perm
          ["p", "q", "r"]) :=
  ⟨⟨rfl, rfl, rfl⟩,
   claim_C3_failure_degrades failOracle true initState initState "x" "y" ["p", "q", "r"]
     rfl rfl rfl⟩

/-- Claim C4: when the oracle's verdict is UNKNOWN for every pair (it
answers `0` or fails, so the comparator sees `0` everywhere),
`sort_images_by_content` on a fresh analyzer returns exactly the input
list — the stable sort preserves the relative input order of tied
items. -/
theorem claim_C4_all_unknown_stable (oracle : Oracle) (enableCache : Bool)
    (image_paths : List String)
    (h : ∀ a b, oracle a b = some 0 ∨ oracle a b = none) :
    (sort_images_by_content oracle enableCache image_paths initState).1 = image_paths := by
  rw [sort_images_by_content]
  by_cases hlen : image_paths.length ≤ 1
  · rw [if_pos hlen]
  · rw [if_neg hlen]
    have hinit : cacheAllZero initState := by
      intro p v hp
      simp [initState, cacheLookup] at hp
    exact (sortCmpS_allZero _ cacheAllZero
      (fun s x y hs => compare_images_order_allZero oracle enableCache h s hs x y)
      image_paths initState hinit).1

/-- Oracle of the witness for claim C4 that always answers UNKNOWN. -/
def zeroOracle : Oracle := fun _ _ => some 0

/-- Witness for claim C4: the all-UNKNOWN oracle leaves three concrete
paths in input order. -/
theorem claim_C4_witness :
    (∀ a b, zeroOracle a b = some 0 ∨ zeroOracle a b = none)
    ∧ (sort_images_by_content zeroOracle true ["c", "a", "b"] initState).1
        = ["c", "a", "b"] :=
  ⟨fun _ _ => Or.inl rfl,
   claim_C4_all_unknown_stable zeroOracle true ["c", "a", "b"] (fun _ _ => Or.inl rfl)⟩

end MangaRenamer
